import Mathlib

/-!
Verification development for the `snmp_exporter` display-hint formatter and
OID utilities.

The Go sources are shallowly embedded as executable Lean definitions:

* Go strings are byte sequences; they are modelled as `List Nat` whose
  elements are the byte values (hints never index tables by byte value, so
  no upper bound is imposed on hint bytes).
* Go byte slices (`[]byte` data) are modelled as `List (Fin 256)`.
* Go `int` is 64-bit; where the source relies on two's-complement
  wrap-around (the `take` accumulator and the `dataPos + take` overflow
  check), the model computes modulo `2 ^ 64` and interprets the sign bit
  explicitly.
* Positions into the hint string are represented by the corresponding
  suffix of the hint (`hintRest = hint[hintPos:]`, `lastSpec =
  hint[lastSpecStart:]`); the Go code only ever compares those positions
  against `len(hint)` and jumps back to `lastSpecStart`, which the suffix
  representation captures exactly.
* The unbounded `for dataPos < len(data)` loop is run on an explicit fuel;
  `some` results are fuel-independent and the fuel chosen for the top-level
  entry point is proved sufficient for every input, which is the formal
  counterpart of termination of the Go loop.
-/

namespace strconv

/-- Auxiliary digit emitter for `appendUint`, structurally recursive on a
fuel that bounds the value (faithful to `strconv.AppendUint`, which emits
the most-significant-first base-`base` digits of `n`). -/
def appendUintAux (base : Nat) : Nat → Nat → List Nat
  | 0, _ => []
  | fuel + 1, n => if n = 0 then [] else appendUintAux base fuel (n / base) ++ [48 + n % base]

/-- Model of Go `strconv.AppendUint(buf[:0], val, base)` for `base ∈ {8, 10}`:
the ASCII bytes of the base-`base` representation of `val`, most significant
digit first, with `0` rendered as `"0"`. -/
def appendUint (base val : Nat) : List Nat :=
  if val = 0 then [48] else appendUintAux base val val

/-- Model of Go `strconv.Itoa`: decimal ASCII bytes, `'-'`-prefixed for
negative values. -/
def itoa (x : Int) : List Nat :=
  if x < 0 then 45 :: appendUint 10 (-x).toNat else appendUint 10 x.toNat

end strconv

namespace collector

/-- Byte-level digit test, from `isDigit` in the source
(`c >= '0' && c <= '9'`). -/
def isDigit (c : Nat) : Bool :=
  decide (48 ≤ c) && decide (c ≤ 57)

/-- The `hexDigits` lookup table `"0123456789ABCDEF"` as ASCII byte values. -/
def hexDigits : List Nat :=
  [48, 49, 50, 51, 52, 53, 54, 55, 56, 57, 65, 66, 67, 68, 69, 70]

/-- Big-endian accumulation `val = (val << 8) | uint64(b)` over a chunk,
with the `uint64` wrap-around made explicit. -/
def beVal (chunk : List (Fin 256)) : Nat :=
  chunk.foldl (fun v b => (v * 256 + b.val) % 2 ^ 64) 0

/-- Formatting of one consumed chunk according to the format character
(`'d' = 100`, `'x' = 120`, `'o' = 111`, `'a' = 97`, `'t' = 116`), from the
`switch fmtChar` block of `applyDisplayHint`. -/
def formatChunk (fmt : Nat) (chunk : List (Fin 256)) : List Nat :=
  if fmt = 100 then strconv.appendUint 10 (beVal chunk)
  else if fmt = 120 then
    chunk.flatMap (fun b => [hexDigits.getD (b.val / 16) 0, hexDigits.getD (b.val % 16) 0])
  else if fmt = 111 then strconv.appendUint 8 (beVal chunk)
  else chunk.map (fun b => b.val)

/-- Two's-complement reading of a 64-bit accumulator. -/
def wrap64 (n : Nat) : Int :=
  if n % 2 ^ 64 < 2 ^ 63 then ((n % 2 ^ 64 : Nat) : Int)
  else ((n % 2 ^ 64 : Nat) : Int) - 2 ^ 64

/-- The chunk-end computation `end := dataPos + take; if end > len(data) ||
end < dataPos { end = len(data) }`, including the signed-overflow catch. -/
def computeEnd (dataPos take dataLen : Nat) : Nat :=
  if (dataLen : Int) < wrap64 (dataPos + take) ∨ wrap64 (dataPos + take) < (dataPos : Int)
  then dataLen
  else (wrap64 (dataPos + take)).toNat

/-- Separator condition from the source:
`hasSep && dataPos < len(data) && (!hasTerm || r != repeatCount-1)`
(checked after `dataPos = end`). -/
def sepCond (hasSep hasTerm : Bool) (dataPos dataLen r repeatCount : Nat) : Bool :=
  hasSep && decide (dataPos < dataLen) && (!hasTerm || decide (r ≠ repeatCount - 1))

/-- Terminator condition from the source: `hasTerm && dataPos < len(data)`. -/
def termCond (hasTerm : Bool) (dataPos dataLen : Nat) : Bool :=
  hasTerm && decide (dataPos < dataLen)

/-- One parsed octet-format specification. `rest` is the hint suffix after
the spec (the suffix form of the Go `hintPos` after parsing). -/
structure DHSpec where
  star : Bool
  take : Nat
  fmt : Nat
  hasSep : Bool
  sep : Nat
  hasTerm : Bool
  term : Nat
  rest : List Nat
deriving Repr, DecidableEq

/-- Step (1) of the parse: the optional `'*'` (byte 42) repeat indicator. -/
def parseStar (s : List Nat) : Bool × List Nat :=
  match s with
  | c :: t => if c = 42 then (true, t) else (false, s)
  | [] => (false, s)

/-- Step (2) of the parse: the decimal octet-length digits, accumulated as
`take = take*10 + int(c-'0')` with 64-bit wrap-around. -/
def parseDigits : List Nat → Nat → Nat × List Nat
  | c :: t, acc =>
    if isDigit c then parseDigits t ((acc * 10 + (c - 48)) % 2 ^ 64) else (acc, c :: t)
  | [], acc => (acc, [])

/-- Steps (4)/(5) of the parse: a separator or terminator byte is any next
byte that is neither a digit nor `'*'`. -/
def sepByte (s : List Nat) : Option Nat :=
  match s with
  | c :: _ => if isDigit c = false ∧ c ≠ 42 then some c else none
  | [] => none

/-- Parse of one complete octet-format specification, steps (1)-(5) of
`applyDisplayHint`, including the `take < 0` signed-overflow rejection
(`2 ^ 63 ≤ take` on the 64-bit two's-complement accumulator). Returns
`none` exactly where the Go code returns `("", false)`. -/
def parseSpec (s : List Nat) : Option DHSpec :=
  match parseStar s with
  | (star, s1) =>
    match s1 with
    | [] => none
    | c1 :: t1 =>
      if isDigit c1 = false then none
      else
        match parseDigits (c1 :: t1) 0 with
        | (take, s2) =>
          if 2 ^ 63 ≤ take then none
          else
            match s2 with
            | [] => none
            | fmtc :: s3 =>
              if fmtc = 100 ∨ fmtc = 120 ∨ fmtc = 111 ∨ fmtc = 97 ∨ fmtc = 116 then
                match sepByte s3 with
                | some sc =>
                  match (if star then sepByte s3.tail else none) with
                  | some tc => some ⟨star, take, fmtc, true, sc, true, tc, s3.tail.tail⟩
                  | none => some ⟨star, take, fmtc, true, sc, false, 0, s3.tail⟩
                | none =>
                  match (if star then sepByte s3 else none) with
                  | some tc => some ⟨star, take, fmtc, false, 0, true, tc, s3.tail⟩
                  | none => some ⟨star, take, fmtc, false, 0, false, 0, s3⟩
              else none

/-- Loop state of `applyDisplayHint`. `hintRest` and `lastSpec` are the
suffixes of the hint at `hintPos` and `lastSpecStart`. -/
structure DHState where
  hintRest : List Nat
  dataPos : Nat
  lastSpec : List Nat
  lastSpecConsumesByte : Bool
  acc : List Nat
deriving Repr, DecidableEq

/-- Bytes emitted by one iteration of the repetition loop: the formatted
chunk `data[dataPos:end]`, followed by the separator when `sepCond` holds
at the advanced cursor. -/
def repEmit (data : List (Fin 256)) (sp : DHSpec) (r repeatCount dataPos : Nat) : List Nat :=
  if sepCond sp.hasSep sp.hasTerm (computeEnd dataPos sp.take data.length) data.length
      r repeatCount then
    formatChunk sp.fmt
        ((data.drop dataPos).take (computeEnd dataPos sp.take data.length - dataPos))
      ++ [sp.sep]
  else
    formatChunk sp.fmt
      ((data.drop dataPos).take (computeEnd dataPos sp.take data.length - dataPos))

/-- The repetition loop
`for r := 0; r < repeatCount && dataPos < len(data); r++ { ... }`.
The extra first argument is structural fuel equal to `repeatCount - r`,
which the guard `r < repeatCount` keeps from being exhausted early. -/
def innerRepeat (data : List (Fin 256)) (sp : DHSpec) (repeatCount : Nat) :
    Nat → Nat → Nat → List Nat → Nat × List Nat
  | 0, _, dataPos, acc => (dataPos, acc)
  | rem + 1, r, dataPos, acc =>
    if r < repeatCount ∧ dataPos < data.length then
      innerRepeat data sp repeatCount rem (r + 1) (computeEnd dataPos sp.take data.length)
        (acc ++ repEmit data sp r repeatCount dataPos)
    else (dataPos, acc)

/-- The repetition loop of one group followed by the trailing terminator
(`if hasTerm && dataPos < len(data) { result.WriteByte(term) }`). -/
def dhApplyGroup (data : List (Fin 256)) (sp : DHSpec) (repeatCount dataPos : Nat)
    (acc : List Nat) : Nat × List Nat :=
  if termCond sp.hasTerm (innerRepeat data sp repeatCount repeatCount 0 dataPos acc).1
      data.length then
    ((innerRepeat data sp repeatCount repeatCount 0 dataPos acc).1,
      (innerRepeat data sp repeatCount repeatCount 0 dataPos acc).2 ++ [sp.term])
  else innerRepeat data sp repeatCount repeatCount 0 dataPos acc

/-- Application of one parsed spec to the data: the optional repeat-count
byte (`repeatCount = int(data[dataPos]); dataPos++` under `'*'`), then the
repetition loop and terminator. -/
def dhApplySpec (data : List (Fin 256)) (sp : DHSpec) (dataPos : Nat) (acc : List Nat) :
    Nat × List Nat :=
  if sp.star ∧ dataPos < data.length then
    dhApplyGroup data sp ((data.getD dataPos 0).val) (dataPos + 1) acc
  else dhApplyGroup data sp 1 dataPos acc

/-- Result of one iteration of the outer loop: either the Go code returned
`("", false)`, or the loop continues with an updated state. -/
inductive StepRes where
  | fail : StepRes
  | next : DHState → StepRes
deriving Repr, DecidableEq

/-- One iteration of the outer `for dataPos < len(data)` loop: implicit
repetition restart (with the zero-consumption guard), spec parse, and spec
application. -/
def dhStep (data : List (Fin 256)) (st : DHState) : StepRes :=
  if st.hintRest = [] ∧ st.lastSpecConsumesByte = false then .fail
  else
    match parseSpec (if st.hintRest = [] then st.lastSpec else st.hintRest) with
    | none => .fail
    | some sp =>
      .next ⟨sp.rest, (dhApplySpec data sp st.dataPos st.acc).1,
        (if st.hintRest = [] then st.lastSpec else st.hintRest),
        decide (0 < sp.take) || sp.star, (dhApplySpec data sp st.dataPos st.acc).2⟩

/-- The outer loop on explicit fuel. `none` means the fuel ran out (proved
below never to happen for the fuel used by `applyDisplayHint`). -/
def dhLoop (data : List (Fin 256)) : Nat → DHState → Option (List Nat × Bool)
  | 0, _ => none
  | fuel + 1, st =>
    if st.dataPos < data.length then
      match dhStep data st with
      | .fail => some ([], false)
      | .next st2 => dhLoop data fuel st2
    else some (st.acc, true)

/-- Fuel used for the outer loop; proved sufficient for every input. -/
def displayHintFuel (hintLen dataLen : Nat) : Nat :=
  dataLen * (hintLen + 1) + hintLen + 1

/-- Model of `applyDisplayHint` from `collector/display_hint.go`: parses an
RFC 2579 DISPLAY-HINT and applies it to the data bytes; `some (s, true)` is
a successful formatting with output bytes `s`, `some ([], false)` is the
`("", false)` error return. -/
def applyDisplayHint (hint : List Nat) (data : List (Fin 256)) : Option (List Nat × Bool) :=
  if hint = [] ∨ data.length = 0 then some ([], false)
  else dhLoop data (displayHintFuel hint.length data.length) ⟨hint, 0, hint, false, []⟩

end collector

namespace strconv

/-- Sign handling of `strconv.Atoi`: an optional leading `'-'` (45) or
`'+'` (43). -/
def atoiSign (s : List Nat) : Bool × List Nat :=
  match s with
  | c :: rest =>
    if c = 45 then (true, rest) else if c = 43 then (false, rest) else (false, s)
  | [] => (false, s)

/-- Model of Go `strconv.Atoi` as used by `oid.ToList` (which discards the
error): optional sign, then decimal digits; `0` on a syntax error (empty or
non-digit input); the maximum-magnitude `int64` on range overflow. -/
def atoi (s : List Nat) : Int :=
  let sd := atoiSign s
  if sd.2 = [] ∨ sd.2.all collector.isDigit = false then 0
  else
    let n : Nat := sd.2.foldl (fun a c => a * 10 + (c - 48)) 0
    if sd.1 then (if 2 ^ 63 < n then -(2 ^ 63) else -(n : Int))
    else (if 2 ^ 63 ≤ n then 2 ^ 63 - 1 else (n : Int))

end strconv

namespace oid

/-- Model of Go `strings.SplitSeq(s, ".")` (`'.'` is byte 46): the list of
`'.'`-separated segments, with one empty segment for the empty string and
empty segments for leading, trailing and doubled dots. -/
def splitOnDot : List Nat → List (List Nat)
  | [] => [[]]
  | c :: rest =>
    if c = 46 then [] :: splitOnDot rest
    else
      match splitOnDot rest with
      | [] => [[c]]
      | p :: ps => (c :: p) :: ps

/-- Model of `oid.ToList`: split on `'.'` and convert every segment with
`strconv.Atoi`, discarding the conversion error. -/
def ToList (s : List Nat) : List Int :=
  (splitOnDot s).map strconv.atoi

/-- Model of `oid.FromList`: the empty string for the empty list, otherwise
the `'.'`-joined `strconv.Itoa` renderings. -/
def FromList : List Int → List Nat
  | [] => []
  | x :: xs => strconv.itoa x ++ xs.flatMap (fun o => 46 :: strconv.itoa o)

/-- The loop of `oid.Split`: `head[i] = v` for `i < count`, and the
remaining elements appended to `tail`. -/
def splitGo (count : Nat) : List Int → Nat → List Int → List Int → List Int × List Int
  | [], _, head, tail => (head, tail)
  | v :: rest, i, head, tail =>
    if i < count then splitGo count rest (i + 1) (head.set i v) tail
    else splitGo count rest (i + 1) head (tail ++ [v])

/-- Model of `oid.Split`: `head` starts as `count` zeros (`make([]int,
count)`), the loop fills it from `oid` and collects the remainder. -/
def Split (oidList : List Int) (count : Nat) : List Int × List Int :=
  splitGo count oidList 0 (List.replicate count 0) []

end oid

namespace collectorOpt

/-- The `smallBufferSize` threshold of the optimized formatter. -/
def smallBufferSize : Nat := 64

/-- Backward scan of `estimateOutputSize`, expressed on the reversed hint
(the Go loop runs `i` from `len(hint)-1` down to `0`). -/
def estimateScan (dataLen : Nat) : List Nat → Nat
  | [] => dataLen * 4 + 1
  | c :: rest =>
    if c = 97 ∨ c = 116 then dataLen + dataLen / 8 + 1
    else if c = 120 then dataLen * 3 + 1
    else if c = 100 ∨ c = 111 then dataLen * 4 + 1
    else estimateScan dataLen rest

/-- Model of `estimateOutputSize` from the optimized source file. -/
def estimateOutputSize (hint : List Nat) (dataLen : Nat) : Nat :=
  estimateScan dataLen hint.reverse

/-- The repetition loop of the optimized small-buffer path; its body is the
same as the loop body in `collector/display_hint.go` (the `[]byte` stack
buffer versus `strings.Builder` distinction is representation-only). -/
def innerRepeat (data : List (Fin 256)) (sp : collector.DHSpec) (repeatCount : Nat) :
    Nat → Nat → Nat → List Nat → Nat × List Nat
  | 0, _, dataPos, acc => (dataPos, acc)
  | rem + 1, r, dataPos, acc =>
    if r < repeatCount ∧ dataPos < data.length then
      innerRepeat data sp repeatCount rem (r + 1)
        (collector.computeEnd dataPos sp.take data.length)
        (acc ++ collector.repEmit data sp r repeatCount dataPos)
    else (dataPos, acc)

/-- Group application of the optimized small-buffer path. -/
def dhApplyGroup (data : List (Fin 256)) (sp : collector.DHSpec) (repeatCount dataPos : Nat)
    (acc : List Nat) : Nat × List Nat :=
  if collector.termCond sp.hasTerm (innerRepeat data sp repeatCount repeatCount 0 dataPos acc).1
      data.length then
    ((innerRepeat data sp repeatCount repeatCount 0 dataPos acc).1,
      (innerRepeat data sp repeatCount repeatCount 0 dataPos acc).2 ++ [sp.term])
  else innerRepeat data sp repeatCount repeatCount 0 dataPos acc

/-- Spec application of the optimized small-buffer path. -/
def dhApplySpec (data : List (Fin 256)) (sp : collector.DHSpec) (dataPos : Nat)
    (acc : List Nat) : Nat × List Nat :=
  if sp.star ∧ dataPos < data.length then
    dhApplyGroup data sp ((data.getD dataPos 0).val) (dataPos + 1) acc
  else dhApplyGroup data sp 1 dataPos acc

/-- One outer-loop iteration of the optimized small-buffer path. -/
def dhStep (data : List (Fin 256)) (st : collector.DHState) : collector.StepRes :=
  if st.hintRest = [] ∧ st.lastSpecConsumesByte = false then .fail
  else
    match collector.parseSpec (if st.hintRest = [] then st.lastSpec else st.hintRest) with
    | none => .fail
    | some sp =>
      .next ⟨sp.rest, (dhApplySpec data sp st.dataPos st.acc).1,
        (if st.hintRest = [] then st.lastSpec else st.hintRest),
        decide (0 < sp.take) || sp.star, (dhApplySpec data sp st.dataPos st.acc).2⟩

/-- Outer loop of the optimized small-buffer path. -/
def dhLoop (data : List (Fin 256)) : Nat → collector.DHState → Option (List Nat × Bool)
  | 0, _ => none
  | fuel + 1, st =>
    if st.dataPos < data.length then
      match dhStep data st with
      | .fail => some ([], false)
      | .next st2 => dhLoop data fuel st2
    else some (st.acc, true)

/-- The repetition loop of `applyDisplayHintLarge`. -/
def innerRepeatLarge (data : List (Fin 256)) (sp : collector.DHSpec) (repeatCount : Nat) :
    Nat → Nat → Nat → List Nat → Nat × List Nat
  | 0, _, dataPos, acc => (dataPos, acc)
  | rem + 1, r, dataPos, acc =>
    if r < repeatCount ∧ dataPos < data.length then
      innerRepeatLarge data sp repeatCount rem (r + 1)
        (collector.computeEnd dataPos sp.take data.length)
        (acc ++ collector.repEmit data sp r repeatCount dataPos)
    else (dataPos, acc)

/-- Group application of `applyDisplayHintLarge`. -/
def dhApplyGroupLarge (data : List (Fin 256)) (sp : collector.DHSpec)
    (repeatCount dataPos : Nat) (acc : List Nat) : Nat × List Nat :=
  if collector.termCond sp.hasTerm
      (innerRepeatLarge data sp repeatCount repeatCount 0 dataPos acc).1 data.length then
    ((innerRepeatLarge data sp repeatCount repeatCount 0 dataPos acc).1,
      (innerRepeatLarge data sp repeatCount repeatCount 0 dataPos acc).2 ++ [sp.term])
  else innerRepeatLarge data sp repeatCount repeatCount 0 dataPos acc

/-- Spec application of `applyDisplayHintLarge`. -/
def dhApplySpecLarge (data : List (Fin 256)) (sp : collector.DHSpec) (dataPos : Nat)
    (acc : List Nat) : Nat × List Nat :=
  if sp.star ∧ dataPos < data.length then
    dhApplyGroupLarge data sp ((data.getD dataPos 0).val) (dataPos + 1) acc
  else dhApplyGroupLarge data sp 1 dataPos acc

/-- One outer-loop iteration of `applyDisplayHintLarge`. -/
def dhStepLarge (data : List (Fin 256)) (st : collector.DHState) : collector.StepRes :=
  if st.hintRest = [] ∧ st.lastSpecConsumesByte = false then .fail
  else
    match collector.parseSpec (if st.hintRest = [] then st.lastSpec else st.hintRest) with
    | none => .fail
    | some sp =>
      .next ⟨sp.rest, (dhApplySpecLarge data sp st.dataPos st.acc).1,
        (if st.hintRest = [] then st.lastSpec else st.hintRest),
        decide (0 < sp.take) || sp.star, (dhApplySpecLarge data sp st.dataPos st.acc).2⟩

/-- Outer loop of `applyDisplayHintLarge`. -/
def dhLoopLarge (data : List (Fin 256)) : Nat → collector.DHState → Option (List Nat × Bool)
  | 0, _ => none
  | fuel + 1, st =>
    if st.dataPos < data.length then
      match dhStepLarge data st with
      | .fail => some ([], false)
      | .next st2 => dhLoopLarge data fuel st2
    else some (st.acc, true)

/-- Model of `applyDisplayHintLarge` from the optimized source file (the
`estimatedSize` argument only pre-sizes the builder). -/
def applyDisplayHintLarge (hint : List Nat) (data : List (Fin 256)) (estimatedSize : Nat) :
    Option (List Nat × Bool) :=
  dhLoopLarge data (collector.displayHintFuel hint.length data.length) ⟨hint, 0, hint, false, []⟩

/-- Model of the optimized `applyDisplayHint`: size estimation, then either
the large path or the small stack-buffer path. -/
def applyDisplayHint (hint : List Nat) (data : List (Fin 256)) : Option (List Nat × Bool) :=
  if hint = [] ∨ data.length = 0 then some ([], false)
  else
    let estimatedSize := estimateOutputSize hint data.length
    if estimatedSize > smallBufferSize then applyDisplayHintLarge hint data estimatedSize
    else dhLoop data (collector.displayHintFuel hint.length data.length) ⟨hint, 0, hint, false, []⟩

end collectorOpt

section SpecSideDefinitions

/-- Separator-emission condition as worded by the specification: emitted
when a separator is defined, UNLESS the cursor has reached end-of-input, or
the instance is the final repetition of a `*`-group whose terminator is
about to be emitted (a defined terminator with input remaining). -/
def sepCondSpec (hasSep hasTerm : Bool) (dataPos dataLen r repeatCount : Nat) : Bool :=
  hasSep &&
    !(decide (dataLen ≤ dataPos) ||
      (decide (r = repeatCount - 1) && hasTerm && decide (dataPos < dataLen)))

/-- Terminator-emission condition as worded by the specification: emitted
when a terminator is defined and input remains. -/
def termCondSpec (hasTerm : Bool) (dataPos dataLen : Nat) : Bool :=
  hasTerm && decide (dataPos < dataLen)

/-- Mathematical big-endian value of a chunk, as worded by the
specification (no wrap-around). -/
def bigEndianNat (chunk : List (Fin 256)) : Nat :=
  chunk.foldl (fun v b => v * 256 + b.val) 0

/-- Canonical most-significant-first ASCII rendering of `v` in base `base`
(the specification's notion of a base-10 / base-8 representation). -/
def asciiDigits (base v : Nat) : List Nat :=
  if v = 0 then [48] else (Nat.digits base v).reverse.map (fun d => 48 + d)

/-- Value of a run of ASCII digit bytes accumulated with 64-bit signed
wrap-around, exactly the accumulator of `parseDigits`. -/
def wrapDigitVal (ds : List Nat) : Nat :=
  ds.foldl (fun a c => (a * 10 + (c - 48)) % 2 ^ 64) 0

/-- Decidable check that no octet-format spec parsed anywhere inside the
hint combines a `'*'` repeat indicator with octet length 0. -/
def hintStarOk (hint : List Nat) : Bool :=
  hint.tails.all fun s =>
    match collector.parseSpec s with
    | some sp => !sp.star || decide (0 < sp.take)
    | none => true

/-- Invariant of the outer loop of `applyDisplayHint`: the data cursor is
in range, both hint positions are suffixes of the hint, and whenever the
zero-consumption flag is set, the recorded last spec really parses, really
consumes input (positive octet length or a `'*'` repeat byte), and ends
exactly at the current hint position. -/
def DHInv (hint : List Nat) (data : List (Fin 256)) (st : collector.DHState) : Prop :=
  st.dataPos ≤ data.length ∧ st.hintRest <:+ hint ∧ st.lastSpec <:+ hint ∧
    (st.lastSpecConsumesByte = true →
      ∃ sp, collector.parseSpec st.lastSpec = some sp
        ∧ (0 < sp.take ∨ sp.star = true) ∧ sp.rest = st.hintRest)

/-- Termination measure of the outer loop: every iteration either consumes
a data byte or advances strictly into the hint. -/
def dhMeasure (hint : List Nat) (data : List (Fin 256)) (st : collector.DHState) : Nat :=
  (data.length - st.dataPos) * (hint.length + 1) + st.hintRest.length

/-- Output-size potential: the accumulated output plus the worst-case
budget of four bytes per unread data byte plus one byte per unread hint
byte. -/
def dhPotential (data : List (Fin 256)) (st : collector.DHState) : Nat :=
  st.acc.length + 4 * (data.length - st.dataPos) + st.hintRest.length

end SpecSideDefinitions

section EquivalenceLemmas

theorem optInnerRepeat_eq (data : List (Fin 256)) (sp : collector.DHSpec) (rc : Nat) :
    ∀ (rem r dp : Nat) (acc : List Nat),
      collectorOpt.innerRepeat data sp rc rem r dp acc =
        collector.innerRepeat data sp rc rem r dp acc := by
  intro rem
  induction rem with
  | zero => intro r dp acc; rfl
  | succ n ih =>
    intro r dp acc
    simp only [collectorOpt.innerRepeat, collector.innerRepeat]
    split
    · exact ih _ _ _
    · rfl

theorem optInnerRepeatLarge_eq (data : List (Fin 256)) (sp : collector.DHSpec) (rc : Nat) :
    ∀ (rem r dp : Nat) (acc : List Nat),
      collectorOpt.innerRepeatLarge data sp rc rem r dp acc =
        collector.innerRepeat data sp rc rem r dp acc := by
  intro rem
  induction rem with
  | zero => intro r dp acc; rfl
  | succ n ih =>
    intro r dp acc
    simp only [collectorOpt.innerRepeatLarge, collector.innerRepeat]
    split
    · exact ih _ _ _
    · rfl

theorem optApplyGroup_eq : collectorOpt.dhApplyGroup = collector.dhApplyGroup := by
  funext data sp rc dp acc
  simp only [collectorOpt.dhApplyGroup, collector.dhApplyGroup, optInnerRepeat_eq]

theorem optApplyGroupLarge_eq : collectorOpt.dhApplyGroupLarge = collector.dhApplyGroup := by
  funext data sp rc dp acc
  simp only [collectorOpt.dhApplyGroupLarge, collector.dhApplyGroup, optInnerRepeatLarge_eq]

theorem optApplySpec_eq : collectorOpt.dhApplySpec = collector.dhApplySpec := by
  funext data sp dp acc
  simp only [collectorOpt.dhApplySpec, collector.dhApplySpec, optApplyGroup_eq]

theorem optApplySpecLarge_eq : collectorOpt.dhApplySpecLarge = collector.dhApplySpec := by
  funext data sp dp acc
  simp only [collectorOpt.dhApplySpecLarge, collector.dhApplySpec, optApplyGroupLarge_eq]

theorem optStep_eq : collectorOpt.dhStep = collector.dhStep := by
  funext data st
  simp only [collectorOpt.dhStep, collector.dhStep, optApplySpec_eq]

theorem optStepLarge_eq : collectorOpt.dhStepLarge = collector.dhStep := by
  funext data st
  simp only [collectorOpt.dhStepLarge, collector.dhStep, optApplySpecLarge_eq]

theorem optLoop_eq (data : List (Fin 256)) :
    ∀ (fuel : Nat) (st : collector.DHState),
      collectorOpt.dhLoop data fuel st = collector.dhLoop data fuel st := by
  intro fuel
  induction fuel with
  | zero => intro st; rfl
  | succ n ih =>
    intro st
    simp only [collectorOpt.dhLoop, collector.dhLoop, optStep_eq]
    split
    · split <;> simp [ih]
    · rfl

theorem optLoopLarge_eq (data : List (Fin 256)) :
    ∀ (fuel : Nat) (st : collector.DHState),
      collectorOpt.dhLoopLarge data fuel st = collector.dhLoop data fuel st := by
  intro fuel
  induction fuel with
  | zero => intro st; rfl
  | succ n ih =>
    intro st
    simp only [collectorOpt.dhLoopLarge, collector.dhLoop, optStepLarge_eq]
    split
    · split <;> simp [ih]
    · rfl

end EquivalenceLemmas

/-- C10: the single-path formatter of `collector/display_hint.go` and the
optimized two-path formatter (stack-buffer path for estimated outputs up to
64 bytes plus `applyDisplayHintLarge` for larger ones) compute the same
function: for every hint and every byte sequence they return the same
`(string, ok)` pair. -/
theorem claim_C10 :
    ∀ (hint : List Nat) (data : List (Fin 256)),
      collectorOpt.applyDisplayHint hint data = collector.applyDisplayHint hint data := by
  intro hint data
  simp only [collectorOpt.applyDisplayHint, collector.applyDisplayHint,
    collectorOpt.applyDisplayHintLarge]
  split
  · rfl
  · split
    · exact optLoopLarge_eq data _ _
    · exact optLoop_eq data _ _

/-- C2: after each applied instance of a spec defining a separator, the
separator is emitted unless the data cursor has reached end-of-input or the
instance is the final repetition of a `*`-group whose terminator is about
to be emitted; when input is exhausted both separator and terminator are
suppressed. The code-side conditions `sepCond`/`termCond` (used by the
repetition loop and spec application of `applyDisplayHint`) coincide with
the spec-side conditions, and both are false at end-of-input. -/
theorem claim_C2 :
    ∀ (hasSep hasTerm : Bool) (dataPos dataLen r repeatCount : Nat),
      collector.sepCond hasSep hasTerm dataPos dataLen r repeatCount =
          sepCondSpec hasSep hasTerm dataPos dataLen r repeatCount
        ∧ collector.termCond hasTerm dataPos dataLen = termCondSpec hasTerm dataPos dataLen
        ∧ (dataLen ≤ dataPos →
            collector.sepCond hasSep hasTerm dataPos dataLen r repeatCount = false
              ∧ collector.termCond hasTerm dataPos dataLen = false) := by
  intro hasSep hasTerm dp len r rc
  refine ⟨?_, rfl, fun h => ⟨?_, ?_⟩⟩
  · cases hasSep <;> cases hasTerm <;>
      by_cases h1 : dp < len <;> by_cases h2 : r = rc - 1 <;>
      simp_all [collector.sepCond, sepCondSpec]
  · cases hasSep <;> cases hasTerm <;> simp_all [collector.sepCond]
  · cases hasTerm <;> simp_all [collector.termCond]

/-- C2 witness: concrete instantiation with input remaining on the final
repetition of a terminator-carrying group (separator suppressed, terminator
emitted) and with input exhausted (both suppressed). -/
theorem claim_C2_witness :
    collector.sepCond true true 3 3 0 2 = sepCondSpec true true 3 3 0 2
      ∧ collector.termCond true 3 3 = termCondSpec true 3 3
      ∧ (collector.sepCond true true 3 3 0 2 = false ∧ collector.termCond true 3 3 = false) :=
  ⟨(claim_C2 true true 3 3 0 2).1, (claim_C2 true true 3 3 0 2).2.1,
    (claim_C2 true true 3 3 0 2).2.2 (by decide)⟩

section SplitLemmas

theorem splitGo_of_count_le (count : Nat) :
    ∀ (rest : List Int) (i : Nat) (head tail : List Int), count ≤ i →
      oid.splitGo count rest i head tail = (head, tail ++ rest) := by
  intro rest
  induction rest with
  | nil => intro i head tail _; simp [oid.splitGo]
  | cons v r ih =>
    intro i head tail hle
    simp only [oid.splitGo, if_neg (by omega : ¬ i < count)]
    rw [ih (i + 1) head (tail ++ [v]) (by omega)]
    simp

theorem splitGo_closed (count : Nat) :
    ∀ (rest : List Int) (i : Nat) (head tail : List Int),
      head.length = count → i ≤ count →
      oid.splitGo count rest i head tail =
        (head.take i ++ rest.take (count - i) ++ head.drop (i + rest.length),
          tail ++ rest.drop (count - i)) := by
  intro rest
  induction rest with
  | nil =>
    intro i head tail hlen hle
    simp [oid.splitGo]
  | cons v r ih =>
    intro i head tail hlen hle
    rcases Nat.lt_or_ge i count with hi | hi
    · simp only [oid.splitGo, if_pos hi]
      rw [ih (i + 1) (head.set i v) tail (by simp [hlen]) (by omega)]
      have hset : head.set i v = head.take i ++ v :: head.drop (i + 1) :=
        List.set_eq_take_cons_drop v (by omega)
      have hlent : (head.take i).length = i := by
        simp [List.length_take]; omega
      have htk : (head.set i v).take (i + 1) = head.take i ++ [v] := by
        rw [hset, List.take_append_eq_append_take, hlent,
          List.take_of_length_le (by omega : (head.take i).length ≤ i + 1)]
        have h1 : i + 1 - i = 1 := by omega
        rw [h1]
        simp
      have hdr : (head.set i v).drop (i + 1 + r.length) = head.drop (i + 1 + r.length) := by
        rw [hset, List.drop_append_eq_append_drop, hlent,
          List.drop_eq_nil_of_le (by omega : (head.take i).length ≤ i + 1 + r.length)]
        have h1 : i + 1 + r.length - i = r.length + 1 := by omega
        rw [h1, List.drop_succ_cons, List.drop_drop]
        have h2 : i + 1 + r.length = r.length + (i + 1) := by omega
        rw [h2]
        simp
      rw [htk, hdr]
      have h1 : count - i = (count - (i + 1)) + 1 := by omega
      have h2 : i + (v :: r).length = i + 1 + r.length := by simp; omega
      rw [h1, h2, List.take_succ_cons, List.drop_succ_cons]
      simp [List.append_assoc]
    · have hieq : i = count := by omega
      subst hieq
      rw [splitGo_of_count_le i (v :: r) i head tail (by omega)]
      have htk : head.take i = head := List.take_of_length_le (by omega)
      have hdr : head.drop (i + (v :: r).length) = [] :=
        List.drop_eq_nil_of_le (by simp only [List.length_cons]; omega)
      simp [htk, hdr]
      try omega

theorem split_closed (o : List Int) (n : Nat) :
    oid.Split o n = (o.take n ++ List.replicate (n - o.length) 0, o.drop n) := by
  unfold oid.Split
  rw [splitGo_closed n o 0 (List.replicate n 0) [] (by simp) (by omega)]
  simp [List.drop_replicate]

end SplitLemmas

/-- C7: for every integer list `o` and every `n ≥ 0`, `Split(o, n)` returns
a pair whose concatenation equals `o` right-padded with zeros to at least
`n` components; the head has length exactly `n` (zero-filled where `o` is
shorter) and the tail is everything past position `n`. -/
theorem claim_C7 :
    ∀ (o : List Int) (n : Nat),
      (oid.Split o n).1 ++ (oid.Split o n).2 = o ++ List.replicate (n - o.length) 0
        ∧ (oid.Split o n).1.length = n
        ∧ (oid.Split o n).1 = o.take n ++ List.replicate (n - o.length) 0
        ∧ (oid.Split o n).2 = o.drop n := by
  intro o n
  rw [split_closed]
  refine ⟨?_, ?_, rfl, rfl⟩
  · rcases le_or_lt n o.length with h | h
    · have hz : n - o.length = 0 := by omega
      simp [hz, List.take_append_drop]
    · simp [List.take_of_length_le (le_of_lt h), List.drop_eq_nil_of_le (le_of_lt h)]
  · simp [List.length_take]
    omega

section OidStringLemmas

theorem splitOnDot_ne_nil : ∀ s : List Nat, oid.splitOnDot s ≠ [] := by
  intro s
  cases s with
  | nil => simp [oid.splitOnDot]
  | cons c t =>
    simp only [oid.splitOnDot]
    split
    · simp
    · split <;> simp

theorem length_splitOnDot : ∀ s : List Nat, (oid.splitOnDot s).length = s.count 46 + 1 := by
  intro s
  induction s with
  | nil => simp [oid.splitOnDot]
  | cons c t ih =>
    by_cases hc : c = 46
    · subst hc
      simp [oid.splitOnDot, ih, List.count_cons]
    · simp only [oid.splitOnDot, if_neg hc]
      cases h : oid.splitOnDot t with
      | nil => exact absurd h (splitOnDot_ne_nil t)
      | cons p ps =>
        rw [h] at ih
        simp only [List.length_cons] at ih ⊢
        simp [List.count_cons, hc, ih]

theorem splitOnDot_append :
    ∀ s1 s2 : List Nat, 46 ∉ s1 →
      oid.splitOnDot (s1 ++ 46 :: s2) = s1 :: oid.splitOnDot s2 := by
  intro s1
  induction s1 with
  | nil => intro s2 _; simp [oid.splitOnDot]
  | cons c t ih =>
    intro s2 hnotin
    have hc : c ≠ 46 := by
      intro h; exact hnotin (by simp [h])
    have ht : 46 ∉ t := fun h => hnotin (by simp [h])
    simp only [List.cons_append, oid.splitOnDot, if_neg hc, List.append_eq]
    rw [ih s2 ht]

theorem splitOnDot_no_dot : ∀ s : List Nat, 46 ∉ s → oid.splitOnDot s = [s] := by
  intro s
  induction s with
  | nil => intro _; rfl
  | cons c t ih =>
    intro hnotin
    have hc : c ≠ 46 := by
      intro h; exact hnotin (by simp [h])
    have ht : 46 ∉ t := fun h => hnotin (by simp [h])
    simp only [oid.splitOnDot, if_neg hc, ih ht]

theorem ToList_no_dot (s : List Nat) (h : 46 ∉ s) : oid.ToList s = [strconv.atoi s] := by
  simp [oid.ToList, splitOnDot_no_dot s h]

theorem ToList_append_dot (s1 s2 : List Nat) (h : 46 ∉ s1) :
    oid.ToList (s1 ++ 46 :: s2) = strconv.atoi s1 :: oid.ToList s2 := by
  simp [oid.ToList, splitOnDot_append s1 s2 h]

end OidStringLemmas

/-- C5 counterexample: on the non-empty string `"1..2"` the parser does not
reject the empty segment between the doubled dots; it converts it to the
component `0`, yielding three components. -/
theorem claim_C5_counterexample :
    oid.ToList [49, 46, 46, 50] = [1, 0, 2]
      ∧ (oid.ToList [49, 46, 46, 50]).length ≠ 2 := by
  decide

/-- C5 (amended): `ToList` splits its input on `'.'` into `count('.') + 1`
segments and converts every segment with the error-discarding `Atoi`; an
empty segment is accepted and contributes the component `0` (it is never
rejected), and splitting is compositional at every dot. -/
theorem claim_C5 :
    (∀ s : List Nat, (oid.ToList s).length = s.count 46 + 1)
      ∧ (∀ s1 s2 : List Nat, 46 ∉ s1 →
          oid.ToList (s1 ++ 46 :: s2) = strconv.atoi s1 :: oid.ToList s2)
      ∧ strconv.atoi [] = 0 := by
  refine ⟨?_, ?_, rfl⟩
  · intro s
    simp [oid.ToList, length_splitOnDot]
  · intro s1 s2 h
    exact ToList_append_dot s1 s2 h

/-- C5 witness: instantiation of the compositional-split part at `"1.2"`. -/
theorem claim_C5_witness :
    oid.ToList ([49] ++ 46 :: [50]) = strconv.atoi [49] :: oid.ToList [50] :=
  claim_C5.2.1 [49] [50] (by decide)

section StrconvLemmas

theorem appendUintAux_eq (base : Nat) (hb : 2 ≤ base) :
    ∀ (fuel n : Nat), n ≤ fuel →
      strconv.appendUintAux base fuel n =
        (Nat.digits base n).reverse.map (fun d => 48 + d) := by
  intro fuel
  induction fuel with
  | zero =>
    intro n hn
    have h0 : n = 0 := by omega
    subst h0
    simp [strconv.appendUintAux]
  | succ f ih =>
    intro n hn
    by_cases h0 : n = 0
    · subst h0
      simp [strconv.appendUintAux]
    · simp only [strconv.appendUintAux, if_neg h0]
      have hlt : n / base < n := Nat.div_lt_self (Nat.pos_of_ne_zero h0) (by omega)
      rw [ih (n / base) (by omega)]
      rw [Nat.digits_def' (by omega : 1 < base) (Nat.pos_of_ne_zero h0)]
      simp

theorem appendUint_eq (base v : Nat) (hb : 2 ≤ base) :
    strconv.appendUint base v = asciiDigits base v := by
  unfold strconv.appendUint asciiDigits
  by_cases h0 : v = 0
  · simp [h0]
  · rw [if_neg h0, if_neg h0, appendUintAux_eq base hb v v le_rfl]

theorem appendUint_mem_range (n : Nat) :
    ∀ b ∈ strconv.appendUint 10 n, 48 ≤ b ∧ b ≤ 57 := by
  rw [appendUint_eq 10 n (by norm_num)]
  unfold asciiDigits
  by_cases h0 : n = 0
  · simp [h0]
  · rw [if_neg h0]
    intro b hb
    rcases List.mem_map.mp hb with ⟨d, hd, rfl⟩
    have : d < 10 := Nat.digits_lt_base (by norm_num) (List.mem_reverse.mp hd)
    omega

theorem foldl_reverse_digits :
    ∀ L : List Nat, L.reverse.foldl (fun a d => a * 10 + d) 0 = Nat.ofDigits 10 L := by
  intro L
  induction L with
  | nil => simp [Nat.ofDigits]
  | cons d t ih =>
    simp only [List.reverse_cons, List.foldl_append, ih, List.foldl_cons, List.foldl_nil,
      Nat.ofDigits_cons]
    omega

theorem atoiFold_appendUint (n : Nat) :
    (strconv.appendUint 10 n).foldl (fun a c => a * 10 + (c - 48)) 0 = n := by
  rw [appendUint_eq 10 n (by norm_num)]
  unfold asciiDigits
  by_cases h0 : n = 0
  · simp [h0]
  · rw [if_neg h0, List.foldl_map]
    have hfun :
        (fun (a : Nat) (d : Nat) => a * 10 + (48 + d - 48)) = fun a d => a * 10 + d := by
      funext a d
      omega
    rw [hfun, foldl_reverse_digits, Nat.ofDigits_digits]

theorem atoi_appendUint (n : Nat) (hn : n < 2 ^ 63) :
    strconv.atoi (strconv.appendUint 10 n) = (n : Int) := by
  obtain ⟨c, t, hct⟩ : ∃ c t, strconv.appendUint 10 n = c :: t := by
    unfold strconv.appendUint
    by_cases h0 : n = 0
    · exact ⟨48, [], by simp [h0]⟩
    · rw [if_neg h0]
      have hne : strconv.appendUintAux 10 n n ≠ [] := by
        rw [appendUintAux_eq 10 (by norm_num) n n le_rfl]
        simp [Nat.digits_ne_nil_iff_ne_zero.mpr h0]
      obtain ⟨c, t, h⟩ := List.exists_cons_of_ne_nil hne
      exact ⟨c, t, h⟩
  have hmemc := appendUint_mem_range n c (by rw [hct]; simp)
  have hall : (c :: t).all collector.isDigit = true := by
    rw [← hct]
    rw [List.all_eq_true]
    intro b hb
    have := appendUint_mem_range n b hb
    simp [collector.isDigit]
    omega
  have hfold := atoiFold_appendUint n
  rw [hct] at hfold ⊢
  have hc45 : ¬ c = 45 := by omega
  have hc43 : ¬ c = 43 := by omega
  have hsign : strconv.atoiSign (c :: t) = (false, c :: t) := by
    simp only [strconv.atoiSign]
    rw [if_neg hc45, if_neg hc43]
  simp only [strconv.atoi, hsign]
  simp [hall, hfold]
  omega

theorem atoi_itoa (x : Int) (h0 : 0 ≤ x) (h1 : x < 2 ^ 63) :
    strconv.atoi (strconv.itoa x) = x := by
  unfold strconv.itoa
  rw [if_neg (by omega : ¬ x < 0)]
  rw [atoi_appendUint x.toNat (by omega)]
  omega

theorem itoa_no_dot (x : Int) (h0 : 0 ≤ x) : 46 ∉ strconv.itoa x := by
  unfold strconv.itoa
  rw [if_neg (by omega : ¬ x < 0)]
  intro hmem
  have := appendUint_mem_range x.toNat 46 hmem
  omega

end StrconvLemmas

/-- C6: `Parse ∘ Format` is the identity on every OID: for every non-empty
list of non-negative 32-bit integers, `ToList (FromList l) = l`. -/
theorem claim_C6 :
    ∀ l : List Int, l ≠ [] → (∀ x ∈ l, 0 ≤ x ∧ x < 2 ^ 32) →
      oid.ToList (oid.FromList l) = l := by
  intro l
  induction l with
  | nil => intro h _; exact absurd rfl h
  | cons x xs ih =>
    intro _ hmem
    have hx := hmem x (by simp)
    have hx63 : x < 2 ^ 63 := by omega
    cases xs with
    | nil =>
      show oid.ToList (strconv.itoa x ++ [].flatMap _) = [x]
      rw [List.flatMap_nil, List.append_nil,
        ToList_no_dot (strconv.itoa x) (itoa_no_dot x hx.1),
        atoi_itoa x hx.1 hx63]
    | cons y ys =>
      have hsplit : oid.FromList (x :: y :: ys) =
          strconv.itoa x ++ 46 :: oid.FromList (y :: ys) := by
        simp [oid.FromList]
      rw [hsplit, ToList_append_dot (strconv.itoa x) (oid.FromList (y :: ys))
        (itoa_no_dot x hx.1)]
      rw [atoi_itoa x hx.1 hx63,
        ih (by simp) (fun z hz => hmem z (by simp [hz]))]

/-- C6 witness: round trip at the concrete OID `1.0.4294967295`. -/
theorem claim_C6_witness :
    oid.ToList (oid.FromList [1, 0, 4294967295]) = [1, 0, 4294967295] :=
  claim_C6 [1, 0, 4294967295] (by decide) (by decide)

section BigEndianLemmas

theorem foldl_mod_beVal :
    ∀ (chunk : List (Fin 256)) (a : Nat),
      chunk.foldl (fun v b => (v * 256 + b.val) % 2 ^ 64) (a % 2 ^ 64) =
        (chunk.foldl (fun v b => v * 256 + b.val) a) % 2 ^ 64 := by
  intro chunk
  induction chunk with
  | nil => intro a; rfl
  | cons b t ih =>
    intro a
    simp only [List.foldl_cons]
    have h1 : (a % 2 ^ 64 * 256 + b.val) % 2 ^ 64 = (a * 256 + b.val) % 2 ^ 64 := by
      omega
    rw [h1]
    exact ih (a * 256 + b.val)

theorem beVal_eq_mod (chunk : List (Fin 256)) :
    collector.beVal chunk = bigEndianNat chunk % 2 ^ 64 := by
  unfold collector.beVal bigEndianNat
  have h0 : (0 : Nat) = 0 % 2 ^ 64 := by norm_num
  rw [h0]
  exact foldl_mod_beVal chunk 0

theorem bigEndianNat_foldl_lt :
    ∀ (chunk : List (Fin 256)) (a : Nat),
      chunk.foldl (fun v b => v * 256 + b.val) a < (a + 1) * 256 ^ chunk.length := by
  intro chunk
  induction chunk with
  | nil => intro a; simp
  | cons b t ih =>
    intro a
    simp only [List.foldl_cons, List.length_cons]
    have h1 := ih (a * 256 + b.val)
    have hb : b.val < 256 := b.isLt
    have h2 : (a * 256 + b.val + 1) * 256 ^ t.length ≤ (a + 1) * 256 ^ (t.length + 1) := by
      have : a * 256 + b.val + 1 ≤ (a + 1) * 256 := by omega
      calc (a * 256 + b.val + 1) * 256 ^ t.length
          ≤ (a + 1) * 256 * 256 ^ t.length := Nat.mul_le_mul_right _ this
        _ = (a + 1) * 256 ^ (t.length + 1) := by ring
    omega

theorem bigEndianNat_lt (chunk : List (Fin 256)) :
    bigEndianNat chunk < 256 ^ chunk.length := by
  have := bigEndianNat_foldl_lt chunk 0
  simpa using this

theorem beVal_exact (chunk : List (Fin 256)) (h : chunk.length ≤ 8) :
    collector.beVal chunk = bigEndianNat chunk := by
  rw [beVal_eq_mod]
  have h1 : bigEndianNat chunk < 2 ^ 64 := by
    have h2 := bigEndianNat_lt chunk
    have h3 : (256 : Nat) ^ chunk.length ≤ 256 ^ 8 :=
      Nat.pow_le_pow_right (by norm_num) h
    have h4 : (256 : Nat) ^ 8 = 2 ^ 64 := by norm_num
    omega
  exact Nat.mod_eq_of_lt h1

end BigEndianLemmas

/-- C8: when `applyDisplayHint` applies format character `'d'` or `'o'` to
a consumed chunk, it emits the base-10 (respectively base-8) representation
of the chunk read as a big-endian unsigned integer reduced modulo `2^64`;
chunks of up to 8 bytes are represented exactly. (`formatChunk` is the
chunk-emission function of the repetition loop of `applyDisplayHint`.) -/
theorem claim_C8 :
    ∀ chunk : List (Fin 256),
      collector.formatChunk 100 chunk = asciiDigits 10 (bigEndianNat chunk % 2 ^ 64)
        ∧ collector.formatChunk 111 chunk = asciiDigits 8 (bigEndianNat chunk % 2 ^ 64)
        ∧ (chunk.length ≤ 8 →
            collector.formatChunk 100 chunk = asciiDigits 10 (bigEndianNat chunk)
              ∧ collector.formatChunk 111 chunk = asciiDigits 8 (bigEndianNat chunk)) := by
  intro chunk
  have hd : collector.formatChunk 100 chunk = strconv.appendUint 10 (collector.beVal chunk) := by
    simp [collector.formatChunk]
  have ho : collector.formatChunk 111 chunk = strconv.appendUint 8 (collector.beVal chunk) := by
    simp [collector.formatChunk]
  refine ⟨?_, ?_, fun h8 => ⟨?_, ?_⟩⟩
  · rw [hd, appendUint_eq 10 _ (by norm_num), beVal_eq_mod]
  · rw [ho, appendUint_eq 8 _ (by norm_num), beVal_eq_mod]
  · rw [hd, appendUint_eq 10 _ (by norm_num), beVal_exact chunk h8]
  · rw [ho, appendUint_eq 8 _ (by norm_num), beVal_exact chunk h8]

/-- C8 witness: exact representation of the two-byte chunk `[1, 2]`
(value 258). -/
theorem claim_C8_witness :
    collector.formatChunk 100 [1, 2] = asciiDigits 10 (bigEndianNat [1, 2])
      ∧ collector.formatChunk 111 [1, 2] = asciiDigits 8 (bigEndianNat [1, 2]) :=
  (claim_C8 [1, 2]).2.2 (by decide)

section ComputeEndLemmas

theorem computeEnd_bounds (dp take len : Nat) (h : dp ≤ len) :
    dp ≤ collector.computeEnd dp take len ∧ collector.computeEnd dp take len ≤ len := by
  unfold collector.computeEnd collector.wrap64
  split <;> split <;> constructor <;> omega

theorem computeEnd_progress (dp take len : Nat) (h1 : dp < len) (h2 : 1 ≤ take)
    (h3 : take < 2 ^ 63) : dp < collector.computeEnd dp take len := by
  unfold collector.computeEnd collector.wrap64
  split <;> split <;> omega

end ComputeEndLemmas

section ParseLemmas

theorem parseDigits_suffix : ∀ (s : List Nat) (acc : Nat),
    (collector.parseDigits s acc).2 <:+ s := by
  intro s
  induction s with
  | nil => intro acc; simp [collector.parseDigits]
  | cons c t ih =>
    intro acc
    simp only [collector.parseDigits]
    split
    · exact ((ih _).trans (List.suffix_cons c t))
    · exact List.suffix_refl _

theorem parseDigits_consumes (c : Nat) (t : List Nat) (acc : Nat)
    (h : collector.isDigit c = true) :
    (collector.parseDigits (c :: t) acc).2.length ≤ t.length := by
  simp only [collector.parseDigits, if_pos h]
  exact (parseDigits_suffix t _).length_le

theorem parseStar_suffix (s : List Nat) : (collector.parseStar s).2 <:+ s := by
  cases s with
  | nil => exact List.suffix_refl _
  | cons c t =>
    simp only [collector.parseStar]
    split
    · exact List.suffix_cons c t
    · exact List.suffix_refl _

theorem parseSpec_facts {s : List Nat} {sp : collector.DHSpec}
    (h : collector.parseSpec s = some sp) :
    sp.rest <:+ s ∧ sp.rest.length + 2 ≤ s.length ∧ sp.take < 2 ^ 63
      ∧ (sp.hasTerm = true → sp.star = true) := by
  unfold collector.parseSpec at h
  split at h
  next star s1 hps =>
  have hs1suf : s1 <:+ s := by
    have := parseStar_suffix s
    rw [hps] at this
    exact this
  split at h
  · cases h
  next c1 t1 =>
  split at h
  · cases h
  next hd =>
  have hdig : collector.isDigit c1 = true := by
    revert hd
    cases collector.isDigit c1 <;> simp
  split at h
  next take s2 hpd =>
  split at h
  · cases h
  next hov =>
  have hs2len : s2.length ≤ t1.length := by
    have := parseDigits_consumes c1 t1 0 hdig
    rw [hpd] at this
    exact this
  have hs2suf : s2 <:+ c1 :: t1 := by
    have := parseDigits_suffix (c1 :: t1) 0
    rw [hpd] at this
    exact this
  split at h
  · cases h
  next fmtc s3 =>
  split at h
  case isFalse => cases h
  next hfmt =>
  have hs3suf : s3 <:+ s := by
    have h1 : s3 <:+ fmtc :: s3 := List.suffix_cons fmtc s3
    exact (h1.trans hs2suf).trans hs1suf
  have hs3len : s3.length + 2 ≤ s.length := by
    have h1 : (c1 :: t1).length ≤ s.length := hs1suf.length_le
    simp only [List.length_cons] at h1 hs2len
    omega
  have htake : take < 2 ^ 63 := by omega
  have htl2 := List.length_tail s3.tail
  have htl1 := List.length_tail s3
  split at h
  · next sc hsb =>
    split at h
    · next tc hterm =>
      have hstar : star = true := by
        cases hst : star
        · rw [hst] at hterm; simp at hterm
        · rfl
      cases h
      dsimp only
      exact ⟨((List.tail_suffix _).trans (List.tail_suffix s3)).trans hs3suf,
        by omega, htake, fun _ => hstar⟩
    · next hterm =>
      cases h
      dsimp only
      exact ⟨(List.tail_suffix s3).trans hs3suf, by omega, htake, by simp⟩
  · next hsb =>
    split at h
    · next tc hterm =>
      have hstar : star = true := by
        cases hst : star
        · rw [hst] at hterm; simp at hterm
        · rfl
      cases h
      dsimp only
      exact ⟨(List.tail_suffix s3).trans hs3suf, by omega, htake, fun _ => hstar⟩
    · next hterm =>
      cases h
      dsimp only
      exact ⟨hs3suf, by omega, htake, by simp⟩

end ParseLemmas

section LoopLemmas

theorem innerRepeat_mono (data : List (Fin 256)) (sp : collector.DHSpec) (rc : Nat) :
    ∀ (rem r dp : Nat) (acc : List Nat), dp ≤ data.length →
      dp ≤ (collector.innerRepeat data sp rc rem r dp acc).1
        ∧ (collector.innerRepeat data sp rc rem r dp acc).1 ≤ data.length := by
  intro rem
  induction rem with
  | zero => intro r dp acc h; exact ⟨le_refl dp, h⟩
  | succ n ih =>
    intro r dp acc h
    simp only [collector.innerRepeat]
    split
    · next hcond =>
      have hb := computeEnd_bounds dp sp.take data.length h
      have hr := ih (r + 1) (collector.computeEnd dp sp.take data.length)
        (acc ++ collector.repEmit data sp r rc dp) hb.2
      exact ⟨hb.1.trans hr.1, hr.2⟩
    · exact ⟨le_refl dp, h⟩

theorem dhApplyGroup_mono (data : List (Fin 256)) (sp : collector.DHSpec) (rc dp : Nat)
    (acc : List Nat) (h : dp ≤ data.length) :
    dp ≤ (collector.dhApplyGroup data sp rc dp acc).1
      ∧ (collector.dhApplyGroup data sp rc dp acc).1 ≤ data.length := by
  unfold collector.dhApplyGroup
  have := innerRepeat_mono data sp rc rc 0 dp acc h
  split <;> exact this

theorem dhApplySpec_mono (data : List (Fin 256)) (sp : collector.DHSpec) (dp : Nat)
    (acc : List Nat) (h : dp ≤ data.length) :
    dp ≤ (collector.dhApplySpec data sp dp acc).1
      ∧ (collector.dhApplySpec data sp dp acc).1 ≤ data.length := by
  unfold collector.dhApplySpec
  split
  · next hc =>
    have hg := dhApplyGroup_mono data sp ((data.getD dp 0).val) (dp + 1) acc (by omega)
    exact ⟨by omega, hg.2⟩
  · exact dhApplyGroup_mono data sp 1 dp acc h

theorem innerRepeat_progress (data : List (Fin 256)) (sp : collector.DHSpec)
    (dp : Nat) (acc : List Nat) (rem : Nat)
    (hdp : dp < data.length) (ht1 : 1 ≤ sp.take) (ht2 : sp.take < 2 ^ 63) :
    dp < (collector.innerRepeat data sp 1 (rem + 1) 0 dp acc).1 := by
  simp only [collector.innerRepeat, if_pos (⟨Nat.zero_lt_one, hdp⟩ : 0 < 1 ∧ dp < data.length)]
  have he := computeEnd_progress dp sp.take data.length hdp ht1 ht2
  have hb := computeEnd_bounds dp sp.take data.length (le_of_lt hdp)
  have := innerRepeat_mono data sp 1 rem (0 + 1) (collector.computeEnd dp sp.take data.length)
    (acc ++ collector.repEmit data sp 0 1 dp) hb.2
  omega

theorem dhApplySpec_progress (data : List (Fin 256)) (sp : collector.DHSpec) (dp : Nat)
    (acc : List Nat) (hdp : dp < data.length) (ht2 : sp.take < 2 ^ 63)
    (hcons : 0 < sp.take ∨ sp.star = true) :
    dp < (collector.dhApplySpec data sp dp acc).1 := by
  unfold collector.dhApplySpec
  split
  · next hc =>
    have hg := dhApplyGroup_mono data sp ((data.getD dp 0).val) (dp + 1) acc (by omega)
    omega
  · next hc =>
    have hstar : sp.star ≠ true ∨ ¬ dp < data.length := by
      by_contra hcon
      push_neg at hcon
      exact hc ⟨hcon.1, hcon.2⟩
    have htake : 1 ≤ sp.take := by
      rcases hcons with h1 | h1
      · omega
      · rcases hstar with h2 | h2
        · exact absurd h1 h2
        · exact absurd hdp h2
    unfold collector.dhApplyGroup
    have hp := innerRepeat_progress data sp dp acc 0 hdp htake ht2
    split <;> exact hp

end LoopLemmas

section StepLemmas

theorem dhStep_next {hint : List Nat} {data : List (Fin 256)} {st st2 : collector.DHState}
    (hinv : DHInv hint data st) (hdp : st.dataPos < data.length)
    (hstep : collector.dhStep data st = collector.StepRes.next st2) :
    DHInv hint data st2 ∧ dhMeasure hint data st2 < dhMeasure hint data st := by
  obtain ⟨hdple, hsuf1, hsuf2, hflag⟩ := hinv
  unfold collector.dhStep at hstep
  split at hstep
  · cases hstep
  next hguard =>
  split at hstep
  · cases hstep
  next sp hps =>
  cases hstep
  obtain ⟨hrsuf, hrlen, htake, hterm⟩ := parseSpec_facts hps
  have hmono := dhApplySpec_mono data sp st.dataPos st.acc hdple
  have hrsufhint : sp.rest <:+ hint := by
    by_cases hre : st.hintRest = []
    · rw [if_pos hre] at hrsuf
      exact hrsuf.trans hsuf2
    · rw [if_neg hre] at hrsuf
      exact hrsuf.trans hsuf1
  have hspecsuf : (if st.hintRest = [] then st.lastSpec else st.hintRest) <:+ hint := by
    by_cases hre : st.hintRest = []
    · rw [if_pos hre]; exact hsuf2
    · rw [if_neg hre]; exact hsuf1
  have hinv2 : DHInv hint data
      ⟨sp.rest, (collector.dhApplySpec data sp st.dataPos st.acc).1,
        (if st.hintRest = [] then st.lastSpec else st.hintRest),
        decide (0 < sp.take) || sp.star,
        (collector.dhApplySpec data sp st.dataPos st.acc).2⟩ := by
    refine ⟨hmono.2, hrsufhint, hspecsuf, ?_⟩
    intro hfl
    exact ⟨sp, hps, by
      simp only [Bool.or_eq_true, decide_eq_true_eq] at hfl
      exact hfl, rfl⟩
  refine ⟨hinv2, ?_⟩
  unfold dhMeasure
  dsimp only
  by_cases hre : st.hintRest = []
  · -- implicit-repetition restart: a data byte is consumed
    rw [if_pos hre] at hps
    have hflagT : st.lastSpecConsumesByte = true := by
      rcases Bool.eq_false_or_eq_true st.lastSpecConsumesByte with h | h
      · exact h
      · exact absurd ⟨hre, h⟩ hguard
    obtain ⟨sp', hsp', hcons', hrest'⟩ := hflag hflagT
    have hspeq : sp' = sp := by
      rw [hsp'] at hps
      exact Option.some.inj hps
    subst hspeq
    have hprog := dhApplySpec_progress data sp' st.dataPos st.acc hdp htake hcons'
    have hA : data.length - (collector.dhApplySpec data sp' st.dataPos st.acc).1 + 1
        ≤ data.length - st.dataPos := by omega
    have hmul : (data.length - (collector.dhApplySpec data sp' st.dataPos st.acc).1 + 1)
        * (hint.length + 1) ≤ (data.length - st.dataPos) * (hint.length + 1) :=
      Nat.mul_le_mul_right _ hA
    have hdist : (data.length - (collector.dhApplySpec data sp' st.dataPos st.acc).1 + 1)
        * (hint.length + 1)
        = (data.length - (collector.dhApplySpec data sp' st.dataPos st.acc).1)
          * (hint.length + 1) + (hint.length + 1) := by ring
    have hrest2 : sp'.rest.length ≤ hint.length := hrsufhint.length_le
    rw [hre]
    simp only [List.length_nil]
    omega
  · -- a fresh spec was parsed from the remaining hint
    rw [if_neg hre] at hrlen
    have hA : data.length - (collector.dhApplySpec data sp st.dataPos st.acc).1
        ≤ data.length - st.dataPos := by
      have := hmono.1
      omega
    have hmul : (data.length - (collector.dhApplySpec data sp st.dataPos st.acc).1)
        * (hint.length + 1) ≤ (data.length - st.dataPos) * (hint.length + 1) :=
      Nat.mul_le_mul_right _ hA
    omega

end StepLemmas

section TerminationLemmas

theorem dhLoop_isSome {hint : List Nat} (data : List (Fin 256)) :
    ∀ (fuel : Nat) (st : collector.DHState), DHInv hint data st →
      dhMeasure hint data st < fuel → (collector.dhLoop data fuel st).isSome = true := by
  intro fuel
  induction fuel with
  | zero => intro st _ hm; omega
  | succ n ih =>
    intro st hinv hm
    simp only [collector.dhLoop]
    split
    · next hdp =>
      cases hstep : collector.dhStep data st with
      | fail => rfl
      | next st2 =>
        have hn := dhStep_next hinv hdp hstep
        exact ih st2 hn.1 (by omega)
    · rfl

theorem applyDisplayHint_total :
    ∀ (hint : List Nat) (data : List (Fin 256)),
      (collector.applyDisplayHint hint data).isSome = true := by
  intro hint data
  unfold collector.applyDisplayHint
  split
  · rfl
  · next hcond =>
    push_neg at hcond
    apply dhLoop_isSome data
    · exact ⟨Nat.zero_le _, List.suffix_refl hint, List.suffix_refl hint,
        fun h => by cases h⟩
    · unfold dhMeasure collector.displayHintFuel
      dsimp only
      simp only [Nat.sub_zero]
      omega

end TerminationLemmas

/-- C3: `applyDisplayHint` terminates on every `(hint, data)` input — the
fuelled outer loop, run with the fuel the entry point supplies, always
yields a definite `(string, ok)` answer — and in the degenerate case where
the spec stream is exhausted while input remains after a spec consuming
zero bytes (hint `"0d"` on data `[5]`), it returns `("", false)` rather
than looping. -/
theorem claim_C3 :
    (∀ (hint : List Nat) (data : List (Fin 256)),
        (collector.applyDisplayHint hint data).isSome = true)
      ∧ collector.applyDisplayHint [48, 100] [5] = some ([], false) :=
  ⟨applyDisplayHint_total, by decide⟩

/-- C9: `applyDisplayHint` is total and never panics: every input yields a
`(string, ok)` result, and the chunk-end computation (which guards every
sub-slice access `data[dataPos:end]`) always stays within
`dataPos ≤ end ≤ len(data)`, including when `dataPos + take` overflows the
64-bit signed range or exceeds the data length. -/
theorem claim_C9 :
    (∀ (hint : List Nat) (data : List (Fin 256)),
        (collector.applyDisplayHint hint data).isSome = true)
      ∧ (∀ dataPos take dataLen : Nat, dataPos ≤ dataLen →
          dataPos ≤ collector.computeEnd dataPos take dataLen
            ∧ collector.computeEnd dataPos take dataLen ≤ dataLen) :=
  ⟨applyDisplayHint_total, fun dp take len h => computeEnd_bounds dp take len h⟩

/-- C9 witness: the guarded end computation at `dataPos = 0`,
`take = 2^64 - 1` (an overflowing length) and `len = 3`. -/
theorem claim_C9_witness :
    0 ≤ collector.computeEnd 0 18446744073709551615 3
      ∧ collector.computeEnd 0 18446744073709551615 3 ≤ 3 :=
  claim_C9.2 0 18446744073709551615 3 (by decide)

section DigitRunLemmas

theorem parseDigits_run :
    ∀ (ds rest : List Nat) (acc : Nat),
      (∀ c ∈ ds, collector.isDigit c = true) →
      (∀ c, rest.head? = some c → collector.isDigit c = false) →
      collector.parseDigits (ds ++ rest) acc =
        (ds.foldl (fun a c => (a * 10 + (c - 48)) % 2 ^ 64) acc, rest) := by
  intro ds
  induction ds with
  | nil =>
    intro rest acc _ hrest
    cases rest with
    | nil => rfl
    | cons c t =>
      simp only [List.nil_append, List.foldl_nil]
      simp only [collector.parseDigits, if_neg]
      rw [if_neg ?hneg]
      case hneg =>
        rw [hrest c rfl]
        simp
  | cons d ds' ih =>
    intro rest acc hdig hrest
    have hd : collector.isDigit d = true := hdig d (by simp)
    simp only [List.cons_append, collector.parseDigits, if_pos hd, List.foldl_cons]
    exact ih rest _ (fun c hc => hdig c (by simp [hc])) hrest

theorem parseSpec_overflow (d : Nat) (ds' rest : List Nat)
    (hdig : ∀ c ∈ d :: ds', collector.isDigit c = true)
    (hrest : ∀ c, rest.head? = some c → collector.isDigit c = false)
    (hov : 2 ^ 63 ≤ wrapDigitVal (d :: ds')) :
    collector.parseSpec ((d :: ds') ++ rest) = none := by
  have hd : collector.isDigit d = true := hdig d (by simp)
  have hd48 : 48 ≤ d ∧ d ≤ 57 := by
    simp only [collector.isDigit, Bool.and_eq_true, decide_eq_true_eq] at hd
    exact hd
  have hd42 : ¬ d = 42 := by omega
  have hstar : collector.parseStar ((d :: ds') ++ rest) = (false, (d :: ds') ++ rest) := by
    simp only [List.cons_append, collector.parseStar, if_neg hd42]
  have hrun := parseDigits_run (d :: ds') rest 0 hdig hrest
  unfold collector.parseSpec
  rw [hstar]
  simp only [List.cons_append]
  rw [show collector.parseDigits (d :: (ds' ++ rest)) 0 =
    (wrapDigitVal (d :: ds'), rest) from by
      rw [← List.cons_append]
      exact hrun]
  simp [hd]
  intro hcon
  omega

end DigitRunLemmas

/-- C4 counterexample: the hint `"2147483648d"` has an octet-length digit
run exceeding `2^31 - 1`, yet on data `[5]` the formatter succeeds with
output `"5"` instead of returning `("", false)` — the code only rejects an
octet length that wraps the 64-bit signed accumulator negative. -/
theorem claim_C4_counterexample :
    collector.applyDisplayHint [50, 49, 52, 55, 52, 56, 51, 54, 52, 56, 100] [5] =
        some ([53], true)
      ∧ collector.applyDisplayHint [50, 49, 52, 55, 52, 56, 51, 54, 52, 56, 100] [5] ≠
        some ([], false) := by
  constructor
  · decide
  · decide

/-- C4 (amended): the octet-length accumulator is a 64-bit signed integer,
so `applyDisplayHint` returns `("", false)` whenever the hint's leading
octet-length digit run accumulates (with 64-bit wrap-around) to a value
with the sign bit set (`2^63 ≤ value mod 2^64`), for every non-empty data;
digit runs whose wrapped value stays below `2^63` are not rejected. -/
theorem claim_C4 :
    ∀ (ds rest : List Nat) (data : List (Fin 256)),
      ds ≠ [] → (∀ c ∈ ds, collector.isDigit c = true) →
      (∀ c, rest.head? = some c → collector.isDigit c = false) →
      2 ^ 63 ≤ wrapDigitVal ds → data ≠ [] →
      collector.applyDisplayHint (ds ++ rest) data = some ([], false) := by
  intro ds rest data hne hdig hrest hov hdne
  obtain ⟨d, ds', rfl⟩ := List.exists_cons_of_ne_nil hne
  have hlen : 0 < data.length := List.length_pos.mpr hdne
  unfold collector.applyDisplayHint
  rw [if_neg (by simp [hdne])]
  unfold collector.displayHintFuel
  simp only [collector.dhLoop]
  rw [if_pos (by simpa using hlen)]
  unfold collector.dhStep
  rw [if_neg (by simp)]
  dsimp only
  rw [if_neg (by simp)]
  rw [parseSpec_overflow d ds' rest hdig hrest hov]

/-- C4 witness: the digit run `"9223372036854775808"` (`2^63`) followed by
format character `'d'`, applied to data `[1]`, is rejected. -/
theorem claim_C4_witness :
    collector.applyDisplayHint
        ([57, 50, 50, 51, 51, 55, 50, 48, 51, 54, 56, 53, 52, 55, 55, 53, 56, 48, 56]
          ++ [100]) [1] = some ([], false) :=
  claim_C4 [57, 50, 50, 51, 51, 55, 50, 48, 51, 54, 56, 53, 52, 55, 55, 53, 56, 48, 56]
    [100] [1] (by decide) (by decide) (by decide) (by decide) (by decide)

section FormatLengthLemmas

theorem digits_length_le_of_lt_pow {b v k : Nat} (hb : 1 < b) (h : v < b ^ k) :
    (Nat.digits b v).length ≤ k := by
  by_cases hv : v = 0
  · simp [hv]
  · by_contra hk
    push_neg at hk
    have h1 : b ^ (Nat.digits b v).length ≤ b * v := Nat.base_pow_length_digits_le b v hb hv
    have h2 : b ^ (k + 1) ≤ b ^ (Nat.digits b v).length :=
      Nat.pow_le_pow_right (by omega) (by omega)
    have h3 : b * v < b * b ^ k := by
      exact mul_lt_mul_of_pos_left h (by omega)
    rw [← pow_succ'] at h3
    omega

theorem appendUint_length_le (base v k : Nat) (hb : 2 ≤ base) (hk : 1 ≤ k)
    (hv : v < base ^ k) : (strconv.appendUint base v).length ≤ k := by
  rw [appendUint_eq base v hb]
  unfold asciiDigits
  by_cases h0 : v = 0
  · simp [h0]
    omega
  · rw [if_neg h0]
    simp only [List.length_map, List.length_reverse]
    exact digits_length_le_of_lt_pow (by omega) hv

theorem hexPairs_length :
    ∀ chunk : List (Fin 256),
      (chunk.flatMap (fun b =>
        [collector.hexDigits.getD (b.val / 16) 0,
          collector.hexDigits.getD (b.val % 16) 0])).length = 2 * chunk.length := by
  intro chunk
  induction chunk with
  | nil => rfl
  | cons b t ih =>
    simp only [List.flatMap_cons, List.length_append, ih, List.length_cons]
    simp
    omega

theorem formatChunk_length (fmt : Nat) (chunk : List (Fin 256)) :
    (collector.formatChunk fmt chunk).length
      ≤ 3 * chunk.length + (if chunk.length = 0 then 1 else 0) := by
  have hval : collector.beVal chunk < 256 ^ chunk.length := by
    rw [beVal_eq_mod]
    have := bigEndianNat_lt chunk
    have h2 : bigEndianNat chunk % 2 ^ 64 ≤ bigEndianNat chunk := Nat.mod_le _ _
    omega
  by_cases hc : chunk.length = 0
  · have hnil : chunk = [] := List.length_eq_zero.mp hc
    subst hnil
    unfold collector.formatChunk
    split
    · simp [collector.beVal, strconv.appendUint]
    · split
      · simp
      · split
        · simp [collector.beVal, strconv.appendUint]
        · simp
  · have hc1 : 1 ≤ chunk.length := by omega
    rw [if_neg hc]
    unfold collector.formatChunk
    split
    · -- 'd': decimal, value < 256^c ≤ 10^(3c)
      have hpow : (256 : Nat) ^ chunk.length ≤ 10 ^ (3 * chunk.length) := by
        calc (256 : Nat) ^ chunk.length ≤ 1000 ^ chunk.length :=
              Nat.pow_le_pow_left (by norm_num) _
          _ = 10 ^ (3 * chunk.length) := by
              rw [Nat.pow_mul]
      have := appendUint_length_le 10 (collector.beVal chunk) (3 * chunk.length)
        (by norm_num) (by omega) (by omega)
      omega
    · split
      · -- 'x': two hex characters per byte
        rw [hexPairs_length chunk]
        omega
      · split
        · -- 'o': octal, value < 256^c = 2^(8c) ≤ 8^(3c)
          have hpow : (256 : Nat) ^ chunk.length ≤ 8 ^ (3 * chunk.length) := by
            have h1 : (256 : Nat) ^ chunk.length = 2 ^ (8 * chunk.length) := by
              rw [Nat.pow_mul]
            have h2 : (2 : Nat) ^ (3 * (3 * chunk.length)) = 8 ^ (3 * chunk.length) := by
              rw [Nat.pow_mul]
            have h3 : (2 : Nat) ^ (8 * chunk.length) ≤ 2 ^ (3 * (3 * chunk.length)) :=
              Nat.pow_le_pow_right (by norm_num) (by omega)
            omega
          have := appendUint_length_le 8 (collector.beVal chunk) (3 * chunk.length)
            (by norm_num) (by omega) (by omega)
          omega
        · -- 'a'/'t': verbatim copy
          simp only [List.length_map]
          omega

theorem chunk_length (data : List (Fin 256)) (dp e : Nat) (h1 : dp ≤ e)
    (h2 : e ≤ data.length) : ((data.drop dp).take (e - dp)).length = e - dp := by
  simp only [List.length_take, List.length_drop]
  omega

theorem repEmit_length (data : List (Fin 256)) (sp : collector.DHSpec) (r rc dp : Nat)
    (hdp : dp ≤ data.length) :
    (collector.repEmit data sp r rc dp).length
      ≤ 3 * (collector.computeEnd dp sp.take data.length - dp)
        + (if collector.computeEnd dp sp.take data.length - dp = 0 then 1 else 0) + 1 := by
  have hb := computeEnd_bounds dp sp.take data.length hdp
  have hch := chunk_length data dp (collector.computeEnd dp sp.take data.length) hb.1 hb.2
  have hfmt := formatChunk_length sp.fmt
    ((data.drop dp).take (collector.computeEnd dp sp.take data.length - dp))
  rw [hch] at hfmt
  unfold collector.repEmit
  split
  · simp only [List.length_append, List.length_cons, List.length_nil]
    omega
  · omega

end FormatLengthLemmas

section PotentialLemmas

theorem innerRepeat_done (data : List (Fin 256)) (sp : collector.DHSpec)
    (rc rem r dp : Nat) (acc : List Nat) (h : rc ≤ r) :
    collector.innerRepeat data sp rc rem r dp acc = (dp, acc) := by
  cases rem with
  | zero => rfl
  | succ n =>
    simp only [collector.innerRepeat]
    rw [if_neg]
    intro hcon
    omega

theorem innerRepeat_pot_pos (data : List (Fin 256)) (sp : collector.DHSpec) (rc : Nat)
    (ht1 : 1 ≤ sp.take) (ht2 : sp.take < 2 ^ 63) :
    ∀ (rem r dp : Nat) (acc : List Nat), dp ≤ data.length →
      (collector.innerRepeat data sp rc rem r dp acc).2.length
          + 4 * (data.length - (collector.innerRepeat data sp rc rem r dp acc).1)
        ≤ acc.length + 4 * (data.length - dp) := by
  intro rem
  induction rem with
  | zero =>
    intro r dp acc h
    simp [collector.innerRepeat]
  | succ n ih =>
    intro r dp acc h
    simp only [collector.innerRepeat]
    split
    · next hcond =>
      have hb := computeEnd_bounds dp sp.take data.length h
      have hprog := computeEnd_progress dp sp.take data.length hcond.2 ht1 ht2
      have hre := repEmit_length data sp r rc dp h
      rw [if_neg (by omega)] at hre
      have hih := ih (r + 1) (collector.computeEnd dp sp.take data.length)
        (acc ++ collector.repEmit data sp r rc dp) hb.2
      simp only [List.length_append] at hih
      omega
    · simp

theorem innerRepeat_pot_zero (data : List (Fin 256)) (sp : collector.DHSpec)
    (ht : sp.take = 0) :
    ∀ (rem dp : Nat) (acc : List Nat), dp ≤ data.length →
      (collector.innerRepeat data sp 1 rem 0 dp acc).2.length
          + 4 * (data.length - (collector.innerRepeat data sp 1 rem 0 dp acc).1)
        ≤ acc.length + 4 * (data.length - dp) + 2 := by
  intro rem dp acc h
  cases rem with
  | zero =>
    simp [collector.innerRepeat]
  | succ n =>
    simp only [collector.innerRepeat]
    split
    · next hcond =>
      have hb := computeEnd_bounds dp sp.take data.length h
      have hre := repEmit_length data sp 0 1 dp h
      rw [innerRepeat_done data sp 1 n (0 + 1) _ _ (by omega)]
      dsimp only
      simp only [List.length_append]
      by_cases hc0 : collector.computeEnd dp sp.take data.length - dp = 0
      · rw [if_pos hc0] at hre
        omega
      · rw [if_neg hc0] at hre
        omega
    · simp

theorem dhApplyGroup_noterm (data : List (Fin 256)) (sp : collector.DHSpec)
    (rc dp : Nat) (acc : List Nat) (hterm : sp.hasTerm = false) :
    collector.dhApplyGroup data sp rc dp acc =
      collector.innerRepeat data sp rc rc 0 dp acc := by
  unfold collector.dhApplyGroup
  rw [if_neg]
  simp [collector.termCond, hterm]

theorem dhApplyGroup_pot_pos (data : List (Fin 256)) (sp : collector.DHSpec)
    (rc dp : Nat) (acc : List Nat) (ht1 : 1 ≤ sp.take) (ht2 : sp.take < 2 ^ 63)
    (h : dp ≤ data.length) :
    (collector.dhApplyGroup data sp rc dp acc).2.length
        + 4 * (data.length - (collector.dhApplyGroup data sp rc dp acc).1)
      ≤ acc.length + 4 * (data.length - dp) + 1 := by
  have hi := innerRepeat_pot_pos data sp rc ht1 ht2 rc 0 dp acc h
  unfold collector.dhApplyGroup
  split
  · dsimp only
    simp only [List.length_append, List.length_cons, List.length_nil]
    omega
  · omega

theorem dhApplySpec_pot (data : List (Fin 256)) (sp : collector.DHSpec) (dp : Nat)
    (acc : List Nat) (hterm_star : sp.hasTerm = true → sp.star = true)
    (hstar_take : sp.star = true → 1 ≤ sp.take) (ht2 : sp.take < 2 ^ 63)
    (hdp : dp < data.length) :
    (collector.dhApplySpec data sp dp acc).2.length
        + 4 * (data.length - (collector.dhApplySpec data sp dp acc).1)
      ≤ acc.length + 4 * (data.length - dp) + (if sp.take = 0 then 2 else 0) := by
  unfold collector.dhApplySpec
  split
  · next hc =>
    have ht1 := hstar_take hc.1
    have hg := dhApplyGroup_pot_pos data sp ((data.getD dp 0).val) (dp + 1) acc ht1 ht2
      (by omega)
    rw [if_neg (by omega)]
    omega
  · next hc =>
    have hstar : sp.star = false := by
      cases hs : sp.star
      · rfl
      · exact absurd ⟨hs, hdp⟩ hc
    have htermF : sp.hasTerm = false := by
      cases hthm : sp.hasTerm
      · rfl
      · have := hterm_star hthm
        rw [hstar] at this
        cases this
    rw [dhApplyGroup_noterm data sp 1 dp acc htermF]
    by_cases ht0 : sp.take = 0
    · rw [if_pos ht0]
      exact innerRepeat_pot_zero data sp ht0 1 dp acc (le_of_lt hdp)
    · rw [if_neg ht0]
      exact innerRepeat_pot_pos data sp 1 (by omega) ht2 1 0 dp acc (le_of_lt hdp)

theorem dhStep_pot {hint : List Nat} {data : List (Fin 256)} {st st2 : collector.DHState}
    (hH : ∀ (s : List Nat) (sp : collector.DHSpec), s <:+ hint →
      collector.parseSpec s = some sp → sp.star = true → 1 ≤ sp.take)
    (hinv : DHInv hint data st) (hdp : st.dataPos < data.length)
    (hstep : collector.dhStep data st = collector.StepRes.next st2) :
    dhPotential data st2 ≤ dhPotential data st := by
  obtain ⟨hdple, hsuf1, hsuf2, hflag⟩ := hinv
  unfold collector.dhStep at hstep
  split at hstep
  · cases hstep
  next hguard =>
  split at hstep
  · cases hstep
  next sp hps =>
  cases hstep
  obtain ⟨hrsuf, hrlen, htake, hterm⟩ := parseSpec_facts hps
  have hspecsuf : (if st.hintRest = [] then st.lastSpec else st.hintRest) <:+ hint := by
    by_cases hre : st.hintRest = []
    · rw [if_pos hre]; exact hsuf2
    · rw [if_neg hre]; exact hsuf1
  have hstar_take : sp.star = true → 1 ≤ sp.take := hH _ sp hspecsuf hps
  have hpot := dhApplySpec_pot data sp st.dataPos st.acc hterm hstar_take htake hdp
  unfold dhPotential
  dsimp only
  by_cases hre : st.hintRest = []
  · rw [if_pos hre] at hps
    have hflagT : st.lastSpecConsumesByte = true := by
      rcases Bool.eq_false_or_eq_true st.lastSpecConsumesByte with h | h
      · exact h
      · exact absurd ⟨hre, h⟩ hguard
    obtain ⟨sp', hsp', hcons', hrest'⟩ := hflag hflagT
    have hspeq : sp' = sp := by
      rw [hsp'] at hps
      exact Option.some.inj hps
    subst hspeq
    have ht1 : 1 ≤ sp'.take := by
      rcases hcons' with hcp | hcs
      · omega
      · exact hstar_take hcs
    rw [if_neg (by omega)] at hpot
    have hr0 : sp'.rest.length = 0 := by
      rw [hrest', hre]
      rfl
    rw [hre]
    simp only [List.length_nil]
    omega
  · rw [if_neg hre] at hrlen
    have hle2 : (if sp.take = 0 then 2 else 0) ≤ 2 := by
      split <;> omega
    omega

theorem dhLoop_bound {hint : List Nat} {data : List (Fin 256)}
    (hH : ∀ (s : List Nat) (sp : collector.DHSpec), s <:+ hint →
      collector.parseSpec s = some sp → sp.star = true → 1 ≤ sp.take) :
    ∀ (fuel : Nat) (st : collector.DHState) (out : List Nat), DHInv hint data st →
      collector.dhLoop data fuel st = some (out, true) →
      out.length ≤ dhPotential data st := by
  intro fuel
  induction fuel with
  | zero => intro st out _ h; cases h
  | succ n ih =>
    intro st out hinv hloop
    simp only [collector.dhLoop] at hloop
    split at hloop
    · next hdp =>
      cases hstep : collector.dhStep data st with
      | fail =>
        rw [hstep] at hloop
        simp at hloop
      | next st2 =>
        rw [hstep] at hloop
        have hn := dhStep_next hinv hdp hstep
        have hp := dhStep_pot hH hinv hdp hstep
        have hb := ih st2 out hn.1 hloop
        omega
    · next hdp =>
      have hacc : st.acc = out := by
        have := Option.some.inj hloop
        exact (Prod.mk.injEq _ _ _ _ ▸ this).1
      have haccl : st.acc.length = out.length := by rw [hacc]
      unfold dhPotential
      omega

end PotentialLemmas

set_option maxRecDepth 4000 in
/-- C1 counterexample: the hint `"*0d"` is legal (star group with octet
length 0) and on data `[255, 0]` the formatter succeeds with 255 output
bytes, far above the claimed bound `4·len(b) + len(h) = 11`: a `'*'`-spec
with octet length 0 emits up to two bytes per repetition while consuming
no data. -/
theorem claim_C1_counterexample :
    collector.applyDisplayHint [42, 48, 100] [255, 0] =
        some (List.replicate 255 48, true)
      ∧ ¬ (List.replicate 255 48).length ≤
          4 * ([255, 0] : List (Fin 256)).length + ([42, 48, 100] : List Nat).length := by
  constructor
  · decide
  · decide

/-- C1 (amended): for every legal hint in which no octet-format spec
combines a `'*'` repeat indicator with octet length 0 (formally: every
suffix of the hint that parses as a spec with `star` set has positive
`take`), and every data input: if `applyDisplayHint` succeeds, the output
byte length is at most `4·len(data) + len(hint)`. -/
theorem claim_C1 :
    ∀ (hint : List Nat) (data : List (Fin 256)) (out : List Nat),
      (∀ (s : List Nat) (sp : collector.DHSpec), s <:+ hint →
        collector.parseSpec s = some sp → sp.star = true → 1 ≤ sp.take) →
      collector.applyDisplayHint hint data = some (out, true) →
      out.length ≤ 4 * data.length + hint.length := by
  intro hint data out hH happ
  unfold collector.applyDisplayHint at happ
  split at happ
  · simp at happ
  · next hc =>
    have hinv : DHInv hint data ⟨hint, 0, hint, false, []⟩ :=
      ⟨Nat.zero_le _, List.suffix_refl hint, List.suffix_refl hint, fun h => by cases h⟩
    have hb := dhLoop_bound hH _ _ out hinv happ
    unfold dhPotential at hb
    dsimp only at hb
    simp only [List.length_nil, Nat.sub_zero] at hb
    omega

theorem hintStarOk_sound {hint : List Nat} (h : hintStarOk hint = true) :
    ∀ (s : List Nat) (sp : collector.DHSpec), s <:+ hint →
      collector.parseSpec s = some sp → sp.star = true → 1 ≤ sp.take := by
  intro s sp hsuf hps hstar
  have hmem : s ∈ hint.tails := (List.mem_tails s hint).mpr hsuf
  have hall := List.all_eq_true.mp h s hmem
  rw [hps] at hall
  simp only [hstar, Bool.not_true, Bool.false_or, decide_eq_true_eq] at hall
  omega

/-- C1 witness: the MAC-style hint `"1x:"` (no star specs at all) applied
to `[0, 26]` yields `"00:1A"`, five bytes, within the bound `4·2 + 3`. -/
theorem claim_C1_witness :
    ([48, 48, 58, 49, 65] : List Nat).length ≤
      4 * ([0, 26] : List (Fin 256)).length + ([49, 120, 58] : List Nat).length :=
  claim_C1 [49, 120, 58] [0, 26] [48, 48, 58, 49, 65]
    (hintStarOk_sound (by decide)) (by decide)

section Examples

example :
    collector.applyDisplayHint [49, 100, 46, 49, 100, 46, 49, 100, 46, 49, 100]
      [192, 168, 1, 1] = some ([49, 57, 50, 46, 49, 54, 56, 46, 49, 46, 49], true) := by
  decide

example :
    collector.applyDisplayHint [49, 120, 58] [0, 26, 43, 60, 77, 94] =
      some ([48, 48, 58, 49, 65, 58, 50, 66, 58, 51, 67, 58, 52, 68, 58, 53, 69], true) := by
  decide

example :
    collector.applyDisplayHint [50, 53, 53, 97] [72, 101, 108, 108, 111] =
      some ([72, 101, 108, 108, 111], true) := by
  decide

example : collector.applyDisplayHint [49, 120] [26, 206, 0] =
    some ([49, 65, 67, 69, 48, 48], true) := by
  decide

example : collector.applyDisplayHint [48, 100] [5] = some ([], false) := by
  decide

end Examples
